import Mathlib

/-!
Verification development for the jaxnerf rendering core.

The repository source holds `nerf/models.py` (the `NerfModel.apply`
orchestrator and the `nerf` factory) and `train.py` (the training step and
its loss).  Those two files are embedded here directly.  The helper module
`model_utils` (ray sampler, positional encoder, volumetric renderer,
importance resampler, noise regularizer, MLP) is not part of the source
tree, so its operations are modelled from the specification; each such
definition carries a doc comment starting with `Modelled from the spec:`.

Real-valued array code is embedded over `ℝ`, one ray at a time: a ray is
the last-axis vector of the `rays` array (a `List ℝ` of width 6 or 9), a
batch of per-sample values is a `List`, and an rgb triple is `Fin 3 → ℝ`.
Randomness is embedded by explicit oracles: a PRNG key is a natural
number, `rngSplit` forks it, and the uniform and gaussian draws a key
would produce are supplied as functions `Key → ℕ → ℝ`.
-/

namespace JaxNerf

/-- An rgb (or generic 3-component) value. -/
abbrev Vec3 : Type := Fin 3 → ℝ

/-- A PRNG key, embedded as a natural number. -/
abbrev Key : Type := ℕ

/-- Modelled from the spec: the caller-supplied random source is split
deterministically before each stochastic operation (`random.split`). -/
def rngSplit (k : Key) : Key × Key := (2 * k + 1, 2 * k + 2)

/-- Euclidean norm of a coordinate vector held as a list. -/
noncomputable def normL (v : List ℝ) : ℝ :=
  Real.sqrt ((v.map (fun x => x ^ 2)).sum)

/-- Normalize a vector by its Euclidean norm (`viewdirs / norm(viewdirs)`). -/
noncomputable def normalizeL (v : List ℝ) : List ℝ :=
  v.map (fun x => x / normL v)

/-- Modelled from the spec: positional encoding (spec 4.1).  The input is
concatenated with `sin (2 ^ k * x)` and `cos (2 ^ k * x)` for every
component `x` and every frequency index `k < deg`.  `model_utils.posenc`
is not in the source tree. -/
noncomputable def posenc (x : List ℝ) (deg : ℕ) : List ℝ :=
  x ++ ((List.range deg).map (fun k =>
    x.flatMap (fun xj => [Real.sin (2 ^ k * xj), Real.cos (2 ^ k * xj)]))).flatten

/-- Modelled from the spec: the stratified bin coordinate in `[0, 1)` for
bin `i` of `n` (spec 4.2).  When randomized, the per-bin jitter `r i`
(a uniform draw in `[0, 1)`) displaces the sample inside its bin; when
deterministic, the bin midpoint is used exactly. -/
noncomputable def binCoord (randomized : Bool) (r : ℕ → ℝ) (n i : ℕ) : ℝ :=
  if randomized then ((i : ℝ) + r i) / n else ((i : ℝ) + 1 / 2) / n

/-- Modelled from the spec: map a bin coordinate `u` in `[0, 1]` to a depth,
either linearly in depth or linearly in disparity (spec 4.2). -/
noncomputable def zFromU (near far : ℝ) (lindisp : Bool) (u : ℝ) : ℝ :=
  if lindisp then 1 / ((1 / near) * (1 - u) + (1 / far) * u)
  else near * (1 - u) + far * u

/-- The 3d points `origin + t * direction` for a list of depths. -/
noncomputable def rayPoints (origin dir : List ℝ) (z : List ℝ) : List (List ℝ) :=
  z.map (fun t => List.zipWith (fun o d => o + t * d) origin dir)

/-- Modelled from the spec: `model_utils.sample_along_rays` (spec 4.2).
Produces the stratified depths along a ray together with the sampled 3d
points.  `r` is the stream of uniform jitters derived from the key passed
at the call site. -/
noncomputable def sample_along_rays (r : ℕ → ℝ) (origin dir : List ℝ) (n : ℕ)
    (near far : ℝ) (randomized lindisp : Bool) : List ℝ × List (List ℝ) :=
  let z := (List.range n).map (fun i => zFromU near far lindisp (binCoord randomized r n i))
  (z, rayPoints origin dir z)

/-- Modelled from the spec: the last interval length is treated as
effectively infinite via a large sentinel (spec 4.3 step 1). -/
noncomputable def lastDelta : ℝ := 10 ^ 10

/-- Modelled from the spec: the epsilon guarding the disparity division
(spec 4.3 step 7). -/
noncomputable def dispEps : ℝ := 1 / 10 ^ 10

/-- Modelled from the spec: compositing weights `w_i = T_i * alpha_i` with
transmittance `T_i` the running product of `1 - alpha_j` over preceding
samples (spec 4.3 steps 4 and 5).  The second argument carries the
running transmittance, starting at 1. -/
noncomputable def renderWeights : List ℝ → ℝ → List ℝ
  | [], _ => []
  | a :: as, t => t * a :: renderWeights as (t * (1 - a))

/-- Modelled from the spec: `model_utils.volumetric_rendering` (spec 4.3).
Interval lengths are the consecutive depth differences with a large
sentinel for the last interval, scaled by the norm of the ray direction;
per-sample opacity is `1 - exp (-(sigma * delta))` on the scaled
intervals; the composite color is the weight-weighted sum of the sample
colors, plus the unaccounted transmittance when the background is white.
Returns `(comp_rgb, disp, acc, weights)`. -/
noncomputable def volumetric_rendering (rgb : List Vec3) (sigma : List ℝ)
    (z_vals : List ℝ) (dirs : List ℝ) (white_bkgd : Bool) :
    Vec3 × ℝ × ℝ × List ℝ :=
  let dists := List.zipWith (fun a b => a - b) (z_vals.drop 1) z_vals.dropLast ++ [lastDelta]
  let scaled := dists.map (fun d => d * normL dirs)
  let alphas := List.zipWith (fun s d => 1 - Real.exp (-(s * d))) sigma scaled
  let weights := renderWeights alphas 1
  let acc := weights.sum
  let comp0 : Vec3 := fun j => (List.zipWith (fun w (c : Vec3) => w * c j) weights rgb).sum
  let comp : Vec3 := if white_bkgd then fun j => comp0 j + (1 - acc) else comp0
  let wz := (List.zipWith (fun w z => w * z) weights z_vals).sum
  let disp := if 0 < acc then 1 / max dispEps (wz / acc) else 0
  (comp, disp, acc, weights)

/-- Modelled from the spec: small uniform floor added to each interior
weight before normalization (spec 4.4 step 2). -/
noncomputable def weightFloor : ℝ := 1 / 100000

/-- Running cumulative sums of a list, starting from an accumulator. -/
noncomputable def cumsum : List ℝ → ℝ → List ℝ
  | [], _ => []
  | x :: xs, acc => (acc + x) :: cumsum xs (acc + x)

/-- Modelled from the spec: invert a piecewise-constant CDF at a quantile
`u`.  Each entry holds `(c0, c1, z0, z1)`: the CDF range and the depth
range of one interior bin; the enclosing bin is located and the depth is
linearly interpolated inside it (spec 4.4 step 5). -/
noncomputable def invertBins : List (ℝ × ℝ × ℝ × ℝ) → ℝ → ℝ
  | [], _ => 0
  | (c0, c1, z0, z1) :: rest, u =>
    if rest = [] ∨ u ≤ c1 then z0 + (z1 - z0) * ((u - c0) / (c1 - c0))
    else invertBins rest u

/-- Modelled from the spec: draw `n` depths by inverse-CDF importance
sampling over the piecewise-constant density defined by the floored,
normalized interior weights (spec 4.4 steps 2 to 5).  The quantiles are
stratified-jittered when randomized and evenly spaced otherwise. -/
noncomputable def piecewisePdfDraws (r : ℕ → ℝ) (bins ws : List ℝ) (n : ℕ)
    (randomized : Bool) : List ℝ :=
  let floored := ws.map (fun w => w + weightFloor)
  let total := floored.sum
  let pmf := floored.map (fun w => w / total)
  let cdfPts := (0 : ℝ) :: cumsum pmf 0
  let quads := List.zipWith (fun (c : ℝ × ℝ) (z : ℝ × ℝ) => (c.1, c.2, z.1, z.2))
    (cdfPts.dropLast.zip (cdfPts.drop 1)) (bins.dropLast.zip (bins.drop 1))
  (List.range n).map (fun i => invertBins quads (binCoord randomized r n i))

/-- Modelled from the spec: `model_utils.sample_pdf` (spec 4.4).  Draws
the new depths from the interior-weight density, merges them with the
original coarse depths and sorts ascending (spec 4.4 step 6), returning
the merged depths and the corresponding 3d points. -/
noncomputable def sample_pdf (r : ℕ → ℝ) (binsMid ws : List ℝ)
    (origin dir : List ℝ) (z_vals : List ℝ) (n : ℕ) (randomized : Bool) :
    List ℝ × List (List ℝ) :=
  let newz := piecewisePdfDraws r binsMid ws n randomized
  let z := (z_vals ++ newz).mergeSort (fun a b => decide (a ≤ b))
  (z, rayPoints origin dir z)

/-- Modelled from the spec: `model_utils.add_gaussian_noise` (spec 4.5).
Adds `std * g i` to each raw density when randomized and the standard
deviation is positive, with `g` the stream of gaussian draws derived from
the key passed at the call site; identity otherwise. -/
noncomputable def add_gaussian_noise (g : ℕ → ℝ) (raw : List ℝ) (std : ℝ)
    (randomized : Bool) : List ℝ :=
  if randomized = true ∧ 0 < std then raw.mapIdx (fun i x => x + std * g i) else raw

/-- The architecture keyword arguments of a `model_utils.MLP` call
(`models.py` lines 91 to 114). -/
structure MLPArch where
  net_depth : ℕ
  net_width : ℕ
  net_depth_condition : ℕ
  net_width_condition : ℕ
  skip_layer : ℕ
  num_rgb_channels : ℕ
  num_sigma_channels : ℕ
deriving DecidableEq, Repr

/-- Modelled from the spec: the default architecture values of the
`model_utils.MLP` module, in effect at any call that passes no
architecture keyword arguments.  `model_utils` is not in the source tree;
the concrete values are the upstream defaults, and nothing below depends
on them beyond their being fixed. -/
def mlpDefaultArch : MLPArch :=
  { net_depth := 8
    net_width := 256
    net_depth_condition := 1
    net_width_condition := 128
    skip_layer := 4
    num_rgb_channels := 3
    num_sigma_channels := 1 }

/-- Modelled from the spec: the default `net_activation` of
`model_utils.MLP` (relu). -/
noncomputable def mlpDefaultActivation : ℝ → ℝ := fun x => max x 0

/-- The RadianceField capability: an opaque differentiable map from the
architecture, the net activation, the encoded sample points and the
optional encoded view direction to `(raw_rgb, raw_sigma)` (spec 2 and 6). -/
abbrev RF : Type :=
  MLPArch → (ℝ → ℝ) → List (List ℝ) → Option (List ℝ) → List Vec3 × List ℝ

/-- The configuration surface of `NerfModel.apply` (`models.py` lines
32 to 37). -/
structure Config where
  num_coarse_samples : ℕ
  num_fine_samples : ℕ
  use_viewdirs : Bool
  near : ℝ
  far : ℝ
  noise_std : ℝ
  net_depth : ℕ
  net_width : ℕ
  net_depth_condition : ℕ
  net_width_condition : ℕ
  net_activation : ℝ → ℝ
  skip_layer : ℕ
  num_rgb_channels : ℕ
  num_sigma_channels : ℕ
  randomized : Bool
  white_bkgd : Bool
  deg_point : ℕ
  deg_view : ℕ
  lindisp : Bool
  rgb_activation : ℝ → ℝ
  sigma_activation : ℝ → ℝ

/-- The architecture passed at the coarse-stage MLP call (`models.py`
lines 91 to 114): every field is forwarded from the configuration. -/
def coarseMLPArch (cfg : Config) : MLPArch :=
  { net_depth := cfg.net_depth
    net_width := cfg.net_width
    net_depth_condition := cfg.net_depth_condition
    net_width_condition := cfg.net_width_condition
    skip_layer := cfg.skip_layer
    num_rgb_channels := cfg.num_rgb_channels
    num_sigma_channels := cfg.num_sigma_channels }

/-- The architecture in effect at the fine-stage MLP call (`models.py`
lines 146 to 149): the call passes no architecture keyword arguments, so
the module defaults apply, whatever the configuration says. -/
def fineMLPArch (_cfg : Config) : MLPArch := mlpDefaultArch

/-- Viewdir extraction (`models.py` lines 74 to 79): when the ray width
exceeds 6 the last 3 components are split off and the rays are truncated;
otherwise components 3 to 5 serve as the view direction.  Returns
`(viewdirs, rays)` after the possible truncation. -/
def extractViewdirs (rays : List ℝ) : List ℝ × List ℝ :=
  if 6 < rays.length then
    (rays.drop (rays.length - 3), rays.take (rays.length - 3))
  else ((rays.drop 3).take 3, rays)

/-- The ray origin slice `rays[..., 0:3]` of the (possibly truncated) rays. -/
def rayOrigin (rays : List ℝ) : List ℝ := ((extractViewdirs rays).2).take 3

/-- The ray direction slice `rays[..., 3:6]` of the (possibly truncated)
rays, as handed to the sampler and the volumetric renderer (`models.py`
line 126 and line 159). -/
def rendererDir (rays : List ℝ) : List ℝ := (((extractViewdirs rays).2).drop 3).take 3

/-- The optional encoded view direction handed to the MLP (`models.py`
lines 87 to 90): the extracted view direction, normalized then
positionally encoded, when `use_viewdirs` is set; absent otherwise. -/
noncomputable def mlpViewArg (rays : List ℝ) (cfg : Config) : Option (List ℝ) :=
  if cfg.use_viewdirs then
    some (posenc (normalizeL (extractViewdirs rays).1) cfg.deg_view)
  else none

/-- The fine-stage depth midpoints as written in the source:
`.5 * (z_vals[..., 1:] + z_vals[..., :-1])` (`models.py` line 134). -/
noncomputable def fineZMid (z : List ℝ) : List ℝ :=
  List.zipWith (fun a b => (1 / 2) * (a + b)) (z.drop 1) z.dropLast

/-- The fine-stage weight slice as written in the source:
`weights[..., 1:-1]` (`models.py` line 139). -/
def fineInteriorW (w : List ℝ) : List ℝ := (w.drop 1).dropLast

/-- The coarse stage of `NerfModel.apply` (`models.py` lines 74 to 131):
stratified sampling, positional encoding, MLP with the configured
architecture, gaussian noise on the raw densities, activations, then
volumetric rendering.  Returns the coarse render result together with the
compositing weights and the coarse depths the fine stage needs. -/
noncomputable def coarseStage (R : RF) (U G : Key → ℕ → ℝ) (rng0 : Key)
    (rays : List ℝ) (cfg : Config) : (Vec3 × ℝ × ℝ) × List ℝ × List ℝ :=
  let s0 := rngSplit rng0
  let zs := sample_along_rays (U s0.1) (rayOrigin rays) (rendererDir rays)
    cfg.num_coarse_samples cfg.near cfg.far cfg.randomized cfg.lindisp
  let samplesEnc := zs.2.map (fun p => posenc p cfg.deg_point)
  let raw := R (coarseMLPArch cfg) cfg.net_activation samplesEnc (mlpViewArg rays cfg)
  let s1 := rngSplit s0.2
  let raw_sigma := add_gaussian_noise (G s1.1) raw.2 cfg.noise_std cfg.randomized
  let rgb := raw.1.map (fun c j => cfg.rgb_activation (c j))
  let sigma := raw_sigma.map cfg.sigma_activation
  let out := volumetric_rendering rgb sigma zs.1 (rendererDir rays) cfg.white_bkgd
  ((out.1, out.2.1, out.2.2.1), out.2.2.2, zs.1)

/-- The fine stage of `NerfModel.apply` (`models.py` lines 133 to 162):
the importance resampler is invoked on the coarse depth midpoints and the
interior weight slice, the merged depths are encoded and pushed through
the MLP, which at this call site carries no architecture keyword
arguments, then noise, activations and volumetric rendering as in the
coarse stage. -/
noncomputable def fineStage (R : RF) (U G : Key → ℕ → ℝ) (rng1 : Key)
    (rays : List ℝ) (cfg : Config) (z_vals weights : List ℝ) : Vec3 × ℝ × ℝ :=
  let s0 := rngSplit rng1
  let zs := sample_pdf (U s0.1) (fineZMid z_vals) (fineInteriorW weights)
    (rayOrigin rays) (rendererDir rays) z_vals cfg.num_fine_samples cfg.randomized
  let samplesEnc := zs.2.map (fun p => posenc p cfg.deg_point)
  let raw := R (fineMLPArch cfg) mlpDefaultActivation samplesEnc (mlpViewArg rays cfg)
  let s1 := rngSplit s0.2
  let raw_sigma := add_gaussian_noise (G s1.1) raw.2 cfg.noise_std cfg.randomized
  let rgb := raw.1.map (fun c j => cfg.rgb_activation (c j))
  let sigma := raw_sigma.map cfg.sigma_activation
  let out := volumetric_rendering rgb sigma zs.1 (rendererDir rays) cfg.white_bkgd
  (out.1, out.2.1, out.2.2.1)

/-- The orchestrator `NerfModel.apply` (`models.py` lines 32 to 163): the
coarse stage always runs; the fine result is appended exactly when
`num_fine_samples > 0`.  Returns the ordered list of render results. -/
noncomputable def NerfModel.apply (R : RF) (U G : Key → ℕ → ℝ) (rng0 rng1 : Key)
    (rays : List ℝ) (cfg : Config) : List (Vec3 × ℝ × ℝ) :=
  let c := coarseStage R U G rng0 rays cfg
  if 0 < cfg.num_fine_samples then
    [c.1, fineStage R U G rng1 rays cfg c.2.2 c.2.1]
  else [c.1]

/-- The synthetic probe range of the `nerf` factory (`models.py` lines
202 to 203): `x = exp (linspace (-90, 90, 1024))` concatenated with its
negated reverse. -/
noncomputable def probe : List ℝ :=
  let xs := (List.range 1024).map (fun i => Real.exp (-90 + 180 * (i : ℝ) / 1023))
  xs.reverse.map (fun x => -x) ++ xs

open Classical in
/-- The `nerf` factory (`models.py` lines 166 to 250): construction fails
with `NotImplementedError` exactly when the rgb activation leaves `[0, 1]`
on some probed input or the sigma activation goes negative on some probed
input; otherwise the model closure (embedded as the validated
configuration) is returned.  The dataset-dependent init shapes are out of
scope. -/
noncomputable def nerf (cfg : Config) : Except String Config :=
  if ∃ x ∈ probe, cfg.rgb_activation x < 0 ∨ 1 < cfg.rgb_activation x then
    Except.error ("rgb_activation produces colors outside of the unit interval")
  else if ∃ x ∈ probe, cfg.sigma_activation x < 0 then
    Except.error ("sigma_activation produces negative densities")
  else Except.ok cfg

/-- One prediction entry of the `ret` list seen by the training loss: the
batched rgb array with the unused disparity and opacity arrays. -/
abbrev Pred : Type := List Vec3 × List ℝ × List ℝ

/-- The default prediction used to state head and last extraction. -/
def dPred : Pred := ([], [], [])

/-- The mean of the squared color error over a batch, `((rgb -
pixels) ** 2).mean()` on a `[batch, 3]` array (`train.py` lines 71
and 78). -/
noncomputable def mseLoss (rgb pixels : List Vec3) : ℝ :=
  (List.zipWith (fun (a b : Vec3) =>
    (a 0 - b 0) ^ 2 + (a 1 - b 1) ^ 2 + (a 2 - b 2) ^ 2) rgb pixels).sum
  / (3 * rgb.length)

/-- The differentiated scalar of `train_step.loss_fn` (`train.py` lines
61 to 84): a `ValueError` unless `ret` has 1 or 2 entries; the main loss
is the mean squared color error of the last entry, and the coarse loss of
the first entry is added when two entries are present, else exactly 0.
The auxiliary psnr statistics are not part of the differentiated scalar
and are omitted. -/
noncomputable def loss_fn (ret : List Pred) (pixels : List Vec3) : Except String ℝ :=
  if ret.length = 1 ∨ ret.length = 2 then
    let loss := mseLoss (ret.getLastD dPred).1 pixels
    let loss_c := if 1 < ret.length then mseLoss (ret.headD dPred).1 pixels else 0
    Except.ok (loss + loss_c)
  else Except.error ("ret should contain either 1 or 2 sets of output")

/-- Midpoints of adjacent coarse depths as the spec words them:
`0.5 * (z_i + z_next)` for each adjacent pair, stated by index. -/
noncomputable def specMidpoints (z : List ℝ) : List ℝ :=
  (List.range (z.length - 1)).map (fun i => (z.getD i 0 + z.getD (i + 1) 0) / 2)

/-- Interior weights as the spec words them: every weight except the
first and the last, stated by index. -/
def specInterior (w : List ℝ) : List ℝ :=
  (List.range (w.length - 2)).map (fun i => w.getD (i + 1) 0)

/-- The default render result used to state head and last extraction. -/
noncomputable def dRes : Vec3 × ℝ × ℝ := (fun _ => 0, 0, 0)

/-- A concrete configuration with valid activations, used to instantiate
universally quantified theorems at a definite input. -/
noncomputable def cfgEx : Config :=
  { num_coarse_samples := 2
    num_fine_samples := 128
    use_viewdirs := true
    near := 2
    far := 6
    noise_std := 1
    net_depth := 8
    net_width := 256
    net_depth_condition := 1
    net_width_condition := 128
    net_activation := fun x => max x 0
    skip_layer := 4
    num_rgb_channels := 3
    num_sigma_channels := 1
    randomized := false
    white_bkgd := true
    deg_point := 10
    deg_view := 4
    lindisp := false
    rgb_activation := fun _ => 1 / 2
    sigma_activation := fun _ => 0 }

/-- A concrete 9-wide ray (origin, direction, separate view direction). -/
noncomputable def raysEx9 : List ℝ := [0, 0, 0, 1, 0, 0, 0, 1, 0]

/-- A concrete 6-wide ray (origin, direction). -/
noncomputable def raysEx6 : List ℝ := [0, 0, 0, 1, 0, 0]

/-- A concrete radiance field returning empty outputs. -/
def rfEx : RF := fun _ _ _ _ => ([], [])

section Lemmas

/-- The result list of `apply` always has exactly one entry per executed
pass, whatever the activations or the radiance field do. -/
lemma apply_length (R : RF) (U G : Key → ℕ → ℝ) (k0 k1 : Key) (rays : List ℝ)
    (cfg : Config) :
    (NerfModel.apply R U G k0 k1 rays cfg).length =
      if cfg.num_fine_samples = 0 then 1 else 2 := by
  by_cases h : cfg.num_fine_samples = 0
  · simp [NerfModel.apply, h]
  · simp [NerfModel.apply, h, Nat.pos_of_ne_zero h]

/-- Every compositing weight is non-negative when the opacities lie in
the unit interval and the incoming transmittance is non-negative. -/
lemma renderWeights_nonneg (as : List ℝ) (t : ℝ) (ht : 0 ≤ t)
    (ha : ∀ a ∈ as, 0 ≤ a ∧ a ≤ 1) : ∀ w ∈ renderWeights as t, 0 ≤ w := by
  induction as generalizing t with
  | nil => simp [renderWeights]
  | cons a as ih =>
    intro w hw
    simp only [renderWeights, List.mem_cons] at hw
    rcases hw with rfl | hw
    · exact mul_nonneg ht (ha a (by simp)).1
    · have h1 := (ha a (by simp)).2
      exact ih (t * (1 - a)) (mul_nonneg ht (by linarith))
        (fun x hx => ha x (by simp [hx])) w hw

/-- The total compositing weight is the transmittance spent: the incoming
transmittance minus what survives all the opacities. -/
lemma renderWeights_sum (as : List ℝ) (t : ℝ) :
    (renderWeights as t).sum = t - t * (as.map (fun a => 1 - a)).prod := by
  induction as generalizing t with
  | nil => simp [renderWeights]
  | cons a as ih =>
    simp only [renderWeights, List.sum_cons, List.map_cons, List.prod_cons, ih (t * (1 - a))]
    ring

/-- A product of unit-interval factors stays in the unit interval. -/
lemma prod_mem_unit (l : List ℝ) (h : ∀ a ∈ l, 0 ≤ a ∧ a ≤ 1) :
    0 ≤ l.prod ∧ l.prod ≤ 1 := by
  induction l with
  | nil => simp
  | cons a l ih =>
    have h1 := h a (by simp)
    have h2 := ih (fun x hx => h x (by simp [hx]))
    simp only [List.prod_cons]
    constructor
    · exact mul_nonneg h1.1 h2.1
    · nlinarith [h1.1, h1.2, h2.1, h2.2]

/-- Members of a zipWith come from members of the two lists. -/
lemma exists_of_mem_zipWith {α β γ : Type} {f : α → β → γ} :
    ∀ {l1 : List α} {l2 : List β} {c : γ}, c ∈ List.zipWith f l1 l2 →
      ∃ a ∈ l1, ∃ b ∈ l2, c = f a b := by
  intro l1
  induction l1 with
  | nil => intro l2 c hc; simp at hc
  | cons a l ih =>
    intro l2 c hc
    cases l2 with
    | nil => simp at hc
    | cons b l2 =>
      simp only [List.zipWith_cons_cons, List.mem_cons] at hc
      rcases hc with rfl | hc
      · exact ⟨a, by simp, b, by simp, rfl⟩
      · obtain ⟨x, hx, y, hy, rfl⟩ := ih hc
        exact ⟨x, by simp [hx], y, by simp [hy], rfl⟩

/-- Consecutive differences of a weakly increasing depth list are
non-negative. -/
lemma diffs_nonneg : ∀ (z : List ℝ), z.Chain' (· ≤ ·) →
    ∀ d ∈ List.zipWith (fun a b => a - b) (z.drop 1) z.dropLast, 0 ≤ d := by
  intro z
  induction z with
  | nil => simp
  | cons a z ih =>
    intro hc d hd
    cases z with
    | nil => simp at hd
    | cons b z =>
      rw [List.chain'_cons] at hc
      have hd2 : d = b - a ∨ d ∈ List.zipWith (fun a b => a - b) z (b :: z).dropLast := by
        simpa using hd
      rcases hd2 with rfl | hd2
      · linarith [hc.1]
      · exact ih hc.2 d (by simpa using hd2)

/-- A weight-rgb dot product over non-negative weights and channel values
is non-negative. -/
lemma sum_zipWith_mul_nonneg (j : Fin 3) :
    ∀ (ws : List ℝ) (cs : List Vec3), (∀ w ∈ ws, 0 ≤ w) → (∀ c ∈ cs, 0 ≤ c j) →
      0 ≤ (List.zipWith (fun w (c : Vec3) => w * c j) ws cs).sum := by
  intro ws
  induction ws with
  | nil => simp
  | cons w ws ih =>
    intro cs hw hc
    cases cs with
    | nil => simp
    | cons c cs =>
      simp only [List.zipWith_cons_cons, List.sum_cons]
      have h1 := mul_nonneg (hw w (by simp)) (hc c (by simp))
      have h2 := ih cs (fun x hx => hw x (by simp [hx])) (fun x hx => hc x (by simp [hx]))
      linarith

/-- A weight-rgb dot product is bounded by the total weight when the
channel values stay below 1 and the weights are non-negative. -/
lemma sum_zipWith_mul_le (j : Fin 3) :
    ∀ (ws : List ℝ) (cs : List Vec3), (∀ w ∈ ws, 0 ≤ w) → (∀ c ∈ cs, c j ≤ 1) →
      (List.zipWith (fun w (c : Vec3) => w * c j) ws cs).sum ≤ ws.sum := by
  intro ws
  induction ws with
  | nil => simp
  | cons w ws ih =>
    intro cs hw hc
    cases cs with
    | nil =>
      simp only [List.zipWith_nil_right, List.sum_nil, List.sum_cons]
      have hsum : 0 ≤ ws.sum :=
        List.sum_nonneg (fun x hx => hw x (List.mem_cons_of_mem w hx))
      have hw0 := hw w (by simp)
      linarith
    | cons c cs =>
      simp only [List.zipWith_cons_cons, List.sum_cons]
      have h1 : w * c j ≤ w := by
        have := mul_le_of_le_one_right (hw w (by simp)) (hc c (by simp))
        simpa using this
      have h2 := ih cs (fun x hx => hw x (by simp [hx])) (fun x hx => hc x (by simp [hx]))
      linarith

/-- Stratified bin coordinates stay non-negative. -/
lemma binCoord_nonneg (rand : Bool) (r : ℕ → ℝ) (n i : ℕ)
    (hr : ∀ k, 0 ≤ r k ∧ r k < 1) : 0 ≤ binCoord rand r n i := by
  cases rand <;> simp only [binCoord, Bool.false_eq_true, if_false, if_true]
  · positivity
  · have := (hr i).1
    positivity

/-- Stratified bin coordinates stay strictly below 1 while the bin index
is in range. -/
lemma binCoord_lt_one (rand : Bool) (r : ℕ → ℝ) (n i : ℕ) (hi : i < n)
    (hr : ∀ k, 0 ≤ r k ∧ r k < 1) : binCoord rand r n i < 1 := by
  have hn : (0 : ℝ) < n := by
    have : 0 < n := by omega
    exact_mod_cast this
  have hi1 : (i : ℝ) + 1 ≤ n := by exact_mod_cast hi
  cases rand <;> simp only [binCoord, Bool.false_eq_true, if_false, if_true] <;>
    rw [div_lt_one hn]
  · linarith
  · linarith [(hr i).2]

/-- Stratified bin coordinates are strictly increasing in the bin index:
the jitter keeps each sample inside its own bin. -/
lemma binCoord_strictMono (rand : Bool) (r : ℕ → ℝ) (n : ℕ) {i j : ℕ}
    (hij : i < j) (hj : j < n) (hr : ∀ k, 0 ≤ r k ∧ r k < 1) :
    binCoord rand r n i < binCoord rand r n j := by
  have hn : (0 : ℝ) < n := by
    have : 0 < n := by omega
    exact_mod_cast this
  have hcast : (i : ℝ) + 1 ≤ j := by exact_mod_cast hij
  cases rand <;> simp only [binCoord, Bool.false_eq_true, if_false, if_true]
  · exact (div_lt_div_iff_of_pos_right hn).mpr (by linarith)
  · exact (div_lt_div_iff_of_pos_right hn).mpr (by linarith [(hr i).2, (hr j).1])

/-- With randomization off, the stratified sampler never consults the
jitter stream. -/
lemma sample_along_rays_unrandomized (r r2 : ℕ → ℝ) (o d : List ℝ) (n : ℕ)
    (near far : ℝ) (lind : Bool) :
    sample_along_rays r o d n near far false lind =
      sample_along_rays r2 o d n near far false lind := by
  simp [sample_along_rays, binCoord]

/-- With randomization off, the inverse-CDF draws never consult the
jitter stream. -/
lemma piecewisePdfDraws_unrandomized (r r2 : ℕ → ℝ) (bins ws : List ℝ) (n : ℕ) :
    piecewisePdfDraws r bins ws n false = piecewisePdfDraws r2 bins ws n false := by
  simp [piecewisePdfDraws, binCoord]

/-- With randomization off, the importance resampler never consults the
jitter stream. -/
lemma sample_pdf_unrandomized (r r2 : ℕ → ℝ) (binsMid ws o d z : List ℝ) (n : ℕ) :
    sample_pdf r binsMid ws o d z n false = sample_pdf r2 binsMid ws o d z n false := by
  unfold sample_pdf
  rw [piecewisePdfDraws_unrandomized r r2 binsMid ws n]

/-- With randomization off, the noise regularizer is the identity on raw
densities, whatever the standard deviation. -/
lemma add_gaussian_noise_unrandomized (g : ℕ → ℝ) (raw : List ℝ) (std : ℝ) :
    add_gaussian_noise g raw std false = raw := by
  simp [add_gaussian_noise]

/-- The coarse MLP architecture does not depend on the noise standard
deviation or the randomization flag. -/
lemma coarseMLPArch_noise (cfg : Config) (std : ℝ) (b : Bool) :
    coarseMLPArch { cfg with noise_std := std, randomized := b } =
      coarseMLPArch cfg := rfl

/-- The fine MLP architecture does not depend on the noise standard
deviation or the randomization flag. -/
lemma fineMLPArch_noise (cfg : Config) (std : ℝ) (b : Bool) :
    fineMLPArch { cfg with noise_std := std, randomized := b } =
      fineMLPArch cfg := rfl

/-- The MLP view-direction argument does not depend on the noise standard
deviation or the randomization flag. -/
lemma mlpViewArg_noise (rays : List ℝ) (cfg : Config) (std : ℝ) (b : Bool) :
    mlpViewArg rays { cfg with noise_std := std, randomized := b } =
      mlpViewArg rays cfg := rfl

/-- With randomization off, the coarse stage ignores the random oracles,
the keys and the noise standard deviation. -/
lemma coarseStage_unrandomized (R : RF) (U U2 G G2 : Key → ℕ → ℝ) (k0 k02 : Key)
    (rays : List ℝ) (cfg : Config) (std std2 : ℝ) (h : cfg.randomized = false) :
    coarseStage R U G k0 rays { cfg with noise_std := std } =
      coarseStage R U2 G2 k02 rays { cfg with noise_std := std2 } := by
  unfold coarseStage
  dsimp only
  rw [h]
  rw [sample_along_rays_unrandomized (U (rngSplit k0).1) (U2 (rngSplit k02).1)
    (rayOrigin rays) (rendererDir rays) cfg.num_coarse_samples cfg.near cfg.far
    cfg.lindisp]
  simp only [add_gaussian_noise_unrandomized, coarseMLPArch_noise, mlpViewArg_noise]

/-- With randomization off, the fine stage ignores the random oracles,
the keys and the noise standard deviation. -/
lemma fineStage_unrandomized (R : RF) (U U2 G G2 : Key → ℕ → ℝ) (k1 k12 : Key)
    (rays : List ℝ) (cfg : Config) (std std2 : ℝ) (z w : List ℝ)
    (h : cfg.randomized = false) :
    fineStage R U G k1 rays { cfg with noise_std := std } z w =
      fineStage R U2 G2 k12 rays { cfg with noise_std := std2 } z w := by
  unfold fineStage
  dsimp only
  rw [h]
  rw [sample_pdf_unrandomized (U (rngSplit k1).1) (U2 (rngSplit k12).1)
    (fineZMid z) (fineInteriorW w) (rayOrigin rays) (rendererDir rays) z
    cfg.num_fine_samples]
  simp only [add_gaussian_noise_unrandomized, fineMLPArch_noise, mlpViewArg_noise]

/-- The depth map keeps values between near and far for bin coordinates
in the unit interval, for both spacing modes; disparity spacing
additionally needs a positive near plane. -/
lemma zFromU_bounds (near far : ℝ) (lind : Bool) (h : near < far)
    (hpos : lind = true → 0 < near) (u : ℝ) (hu0 : 0 ≤ u) (hu1 : u ≤ 1) :
    near ≤ zFromU near far lind u ∧ zFromU near far lind u ≤ far := by
  cases lind
  · simp only [zFromU, Bool.false_eq_true, if_false]
    constructor <;> nlinarith
  · have hn : 0 < near := hpos rfl
    have hf : 0 < far := hn.trans h
    simp only [zFromU, if_true]
    have hinv : 1 / far ≤ 1 / near := one_div_le_one_div_of_le hn h.le
    have hgf : 1 / far ≤ (1 / near) * (1 - u) + (1 / far) * u := by nlinarith
    have hgn : (1 / near) * (1 - u) + (1 / far) * u ≤ 1 / near := by nlinarith
    have hfpos : (0 : ℝ) < 1 / far := by positivity
    have hgpos : 0 < (1 / near) * (1 - u) + (1 / far) * u := lt_of_lt_of_le hfpos hgf
    constructor
    · have := one_div_le_one_div_of_le hgpos hgn
      rwa [one_div_one_div] at this
    · have := one_div_le_one_div_of_le hfpos hgf
      rwa [one_div_one_div] at this

/-- The depth map is strictly monotone in the bin coordinate on the unit
interval, for both spacing modes; disparity spacing additionally needs a
positive near plane. -/
lemma zFromU_strictMono (near far : ℝ) (lind : Bool) (h : near < far)
    (hpos : lind = true → 0 < near) {u v : ℝ} (hu0 : 0 ≤ u) (hv1 : v ≤ 1)
    (huv : u < v) : zFromU near far lind u < zFromU near far lind v := by
  cases lind
  · simp only [zFromU, Bool.false_eq_true, if_false]
    nlinarith
  · have hn : 0 < near := hpos rfl
    have hf : 0 < far := hn.trans h
    simp only [zFromU, if_true]
    have hinv : 1 / far < 1 / near := one_div_lt_one_div_of_lt hn h
    have hgv : 1 / far ≤ (1 / near) * (1 - v) + (1 / far) * v := by nlinarith
    have hgvpos : 0 < (1 / near) * (1 - v) + (1 / far) * v :=
      lt_of_lt_of_le (by positivity) hgv
    have hlt : (1 / near) * (1 - v) + (1 / far) * v <
        (1 / near) * (1 - u) + (1 / far) * u := by nlinarith
    exact one_div_lt_one_div_of_lt hgvpos hlt

end Lemmas

/-- C1: for every call, NerfModel.apply returns the ordered list holding
the coarse render result first, with the fine result appended exactly
when num_fine_samples > 0; hence the list has length 1 when
num_fine_samples = 0 and length 2 otherwise, its head is the coarse
result, and its last element is the primary prediction: the fine result
when the fine pass ran and the coarse result otherwise.  The training
loss consumes exactly that last element (see the C10 theorem on
loss_fn). -/
theorem apply_returns_coarse_then_optional_fine
    (R : RF) (U G : Key → ℕ → ℝ) (k0 k1 : Key) (rays : List ℝ) (cfg : Config) :
    NerfModel.apply R U G k0 k1 rays cfg =
      (if cfg.num_fine_samples = 0 then [(coarseStage R U G k0 rays cfg).1]
       else [(coarseStage R U G k0 rays cfg).1,
         fineStage R U G k1 rays cfg (coarseStage R U G k0 rays cfg).2.2
           (coarseStage R U G k0 rays cfg).2.1]) ∧
    (NerfModel.apply R U G k0 k1 rays cfg).length =
      (if cfg.num_fine_samples = 0 then 1 else 2) ∧
    (NerfModel.apply R U G k0 k1 rays cfg).headD dRes =
      (coarseStage R U G k0 rays cfg).1 ∧
    (NerfModel.apply R U G k0 k1 rays cfg).getLastD dRes =
      (if cfg.num_fine_samples = 0 then (coarseStage R U G k0 rays cfg).1
       else fineStage R U G k1 rays cfg (coarseStage R U G k0 rays cfg).2.2
         (coarseStage R U G k0 rays cfg).2.1) := by
  by_cases h : cfg.num_fine_samples = 0
  · simp [NerfModel.apply, h]
  · simp [NerfModel.apply, h, Nat.pos_of_ne_zero h]

/-- C2: refutation evidence.  The coarse-stage MLP call forwards the
configured architecture, but the fine-stage call (`models.py` lines 146
to 149) passes no architecture keyword arguments, so the fine pass runs
with the fixed MLP defaults: at a configuration with net_depth = 9 the
coarse call uses depth 9 while the fine call uses the default depth 8,
and the two calls disagree on their architecture parameters. -/
theorem fine_mlp_uses_default_architecture :
    (coarseMLPArch { cfgEx with net_depth := 9 }).net_depth = 9 ∧
    (fineMLPArch { cfgEx with net_depth := 9 }).net_depth = 8 ∧
    fineMLPArch { cfgEx with net_depth := 9 } ≠
      coarseMLPArch { cfgEx with net_depth := 9 } := by
  refine ⟨rfl, rfl, ?_⟩
  intro h
  have hd := congrArg MLPArch.net_depth h
  simp [coarseMLPArch, fineMLPArch, mlpDefaultArch, cfgEx] at hd

/-- C3: the nerf factory errors exactly when the chosen rgb activation
leaves the unit interval on some probed input or the chosen sigma
activation goes negative on some probed input; on success the returned
model carries the validated activations, which satisfy the range
constraints on every probed input, and rendering performs no per-call
range check: apply is total and returns its usual result list for every
configuration. -/
theorem nerf_construction_validation (cfg : Config) :
    ((∃ e, nerf cfg = Except.error e) ↔
      ((∃ x ∈ probe, cfg.rgb_activation x < 0 ∨ 1 < cfg.rgb_activation x) ∨
       (∃ x ∈ probe, cfg.sigma_activation x < 0))) ∧
    (∀ m, nerf cfg = Except.ok m → m = cfg ∧
      ∀ x ∈ probe, (0 ≤ cfg.rgb_activation x ∧ cfg.rgb_activation x ≤ 1) ∧
        0 ≤ cfg.sigma_activation x) ∧
    (∀ (R : RF) (U G : Key → ℕ → ℝ) (k0 k1 : Key) (rays : List ℝ),
      (NerfModel.apply R U G k0 k1 rays cfg).length =
        if cfg.num_fine_samples = 0 then 1 else 2) := by
  refine ⟨?_, ?_, fun R U G k0 k1 rays => apply_length R U G k0 k1 rays cfg⟩
  · unfold nerf
    by_cases h1 : ∃ x ∈ probe, cfg.rgb_activation x < 0 ∨ 1 < cfg.rgb_activation x
    · rw [if_pos h1]
      exact ⟨fun _ => Or.inl h1, fun _ => ⟨_, rfl⟩⟩
    · rw [if_neg h1]
      by_cases h2 : ∃ x ∈ probe, cfg.sigma_activation x < 0
      · rw [if_pos h2]
        exact ⟨fun _ => Or.inr h2, fun _ => ⟨_, rfl⟩⟩
      · rw [if_neg h2]
        constructor
        · rintro ⟨e, he⟩
          exact absurd he (by simp)
        · rintro (h | h) <;> [exact absurd h h1; exact absurd h h2]
  · intro m hm
    unfold nerf at hm
    by_cases h1 : ∃ x ∈ probe, cfg.rgb_activation x < 0 ∨ 1 < cfg.rgb_activation x
    · rw [if_pos h1] at hm
      exact absurd hm (by simp)
    · rw [if_neg h1] at hm
      by_cases h2 : ∃ x ∈ probe, cfg.sigma_activation x < 0
      · rw [if_pos h2] at hm
        exact absurd hm (by simp)
      · rw [if_neg h2] at hm
        push_neg at h1 h2
        injection hm with hmc
        exact ⟨hmc.symm, fun x hx => ⟨h1 x hx, h2 x hx⟩⟩

/-- C3 witness: at the concrete configuration cfgEx, whose activations
map the probe into range, construction succeeds and the theorem applies. -/
theorem nerf_construction_validation_witness :
    nerf cfgEx = Except.ok cfgEx ∧ cfgEx = cfgEx := by
  have hok : nerf cfgEx = Except.ok cfgEx := by norm_num [nerf, cfgEx]
  exact ⟨hok, ((nerf_construction_validation cfgEx).2.1 cfgEx hok).1⟩

/-- C4: the fine-stage resampler arguments are exactly the spec's: the
source expression for the depth midpoints equals 0.5 * (z_i + z_next)
index by index, the source weight slice equals the interior weights with
the first and last excluded, and the resampler's output depth set is a
permutation of the coarse depths merged with the freshly drawn depths. -/
theorem fine_stage_resampler_arguments (z w binsMid ws origin dir zc : List ℝ)
    (r : ℕ → ℝ) (n : ℕ) (rand : Bool) :
    fineZMid z = specMidpoints z ∧
    fineInteriorW w = specInterior w ∧
    ((sample_pdf r binsMid ws origin dir zc n rand).1).Perm
      (zc ++ piecewisePdfDraws r binsMid ws n rand) := by
  refine ⟨?_, ?_, ?_⟩
  · apply List.ext_getElem
    · simp [fineZMid, specMidpoints]
    · intro i h1 h2
      have hlen : i < z.length - 1 := by
        simpa [fineZMid] using h1
      have hz1 : 1 + i < z.length := by omega
      have hz0 : i < z.length := by omega
      simp only [fineZMid, specMidpoints, List.getElem_zipWith, List.getElem_drop,
        List.getElem_dropLast, List.getElem_map, List.getElem_range]
      rw [← List.getD_eq_getElem z 0 hz1, ← List.getD_eq_getElem z 0 hz0,
        Nat.add_comm 1 i]
      ring
  · apply List.ext_getElem
    · simp [fineInteriorW, specInterior]
      omega
    · intro i h1 h2
      have hlen : i < w.length - 2 := by
        have := h1
        simp [fineInteriorW] at this
        omega
      have hw1 : 1 + i < w.length := by omega
      simp only [fineInteriorW, specInterior, List.getElem_dropLast, List.getElem_drop,
        List.getElem_map, List.getElem_range]
      rw [← List.getD_eq_getElem w 0 hw1, Nat.add_comm 1 i]
  · simpa [sample_pdf] using
      List.mergeSort_perm (zc ++ piecewisePdfDraws r binsMid ws n rand)
        (fun a b => decide (a ≤ b))

/-- C5: for rays of the documented widths 6 and 9, a width above 6 makes
the last 3 components the view direction and truncates the rays before
sampling, width 6 reuses components 3 to 5; the MLP receives the
normalized, positionally encoded view direction exactly when use_viewdirs
is set, and the volumetric renderer always receives the raw slice
rays[3:6] of the original ray, never the normalized view direction. -/
theorem viewdir_extraction_and_renderer_direction (rays : List ℝ) (cfg : Config)
    (h : rays.length = 6 ∨ rays.length = 9) :
    (6 < rays.length →
      (extractViewdirs rays).1 = rays.drop (rays.length - 3) ∧
      (extractViewdirs rays).2 = rays.take (rays.length - 3)) ∧
    (rays.length = 6 →
      (extractViewdirs rays).1 = (rays.drop 3).take 3 ∧
      (extractViewdirs rays).2 = rays) ∧
    rendererDir rays = (rays.drop 3).take 3 ∧
    (cfg.use_viewdirs = true →
      mlpViewArg rays cfg =
        some (posenc (normalizeL (extractViewdirs rays).1) cfg.deg_view)) ∧
    (cfg.use_viewdirs = false → mlpViewArg rays cfg = none) := by
  have hview : ∀ b : Bool, cfg.use_viewdirs = b →
      mlpViewArg rays cfg = (if b then
        some (posenc (normalizeL (extractViewdirs rays).1) cfg.deg_view) else none) := by
    intro b hb
    simp [mlpViewArg, hb]
  rcases h with h6 | h9
  · have hnot : ¬ 6 < rays.length := by omega
    refine ⟨fun hc => absurd hc hnot, fun _ => ?_, ?_, ?_, ?_⟩
    · simp [extractViewdirs, hnot]
    · simp [rendererDir, extractViewdirs, hnot]
    · intro hb; simpa using hview true hb
    · intro hb; simpa using hview false hb
  · have hgt : 6 < rays.length := by omega
    refine ⟨fun _ => ?_, fun hc => by omega, ?_, ?_, ?_⟩
    · simp [extractViewdirs, hgt]
    · have : rays.length - 3 = 6 := by omega
      simp [rendererDir, extractViewdirs, hgt, this, List.drop_take]
    · intro hb; simpa using hview true hb
    · intro hb; simpa using hview false hb

/-- C5 witness: the theorem applied to the concrete 9-wide ray raysEx9. -/
theorem viewdir_extraction_witness :
    (raysEx9.length = 6 ∨ raysEx9.length = 9) ∧
    rendererDir raysEx9 = (raysEx9.drop 3).take 3 := by
  have h : raysEx9.length = 6 ∨ raysEx9.length = 9 := Or.inr (by simp [raysEx9])
  exact ⟨h, (viewdir_extraction_and_renderer_direction raysEx9 cfgEx h).2.2.1⟩

/-- C6: on activation-compliant inputs (unit-interval colors,
non-negative densities) and an ordered depth list (the SampleSet
invariant), the volumetric renderer yields non-negative compositing
weights summing to at most 1, an accumulated opacity in the unit
interval, and a composite color whose components all lie in the unit
interval, for both background modes. -/
theorem volumetric_rendering_ranges (rgb : List Vec3) (sigma z_vals dirs : List ℝ)
    (wb : Bool) (hz : z_vals.Chain' (· ≤ ·))
    (hrgb : ∀ c ∈ rgb, ∀ j, 0 ≤ c j ∧ c j ≤ 1)
    (hsig : ∀ s ∈ sigma, 0 ≤ s) :
    (∀ w ∈ (volumetric_rendering rgb sigma z_vals dirs wb).2.2.2, 0 ≤ w) ∧
    0 ≤ ((volumetric_rendering rgb sigma z_vals dirs wb).2.2.2).sum ∧
    ((volumetric_rendering rgb sigma z_vals dirs wb).2.2.2).sum ≤ 1 ∧
    0 ≤ (volumetric_rendering rgb sigma z_vals dirs wb).2.2.1 ∧
    (volumetric_rendering rgb sigma z_vals dirs wb).2.2.1 ≤ 1 ∧
    (∀ j, 0 ≤ (volumetric_rendering rgb sigma z_vals dirs wb).1 j ∧
      (volumetric_rendering rgb sigma z_vals dirs wb).1 j ≤ 1) := by
  set DL := List.zipWith (fun a b => a - b) (z_vals.drop 1) z_vals.dropLast ++ [lastDelta]
    with hDL
  set SC := DL.map (fun d => d * normL dirs) with hSC
  set A := List.zipWith (fun s d => 1 - Real.exp (-(s * d))) sigma SC with hA
  set W := renderWeights A 1 with hW
  have hw_eq : (volumetric_rendering rgb sigma z_vals dirs wb).2.2.2 = W := rfl
  have hacc_eq : (volumetric_rendering rgb sigma z_vals dirs wb).2.2.1 = W.sum := rfl
  have hcomp_t : wb = true → ∀ j : Fin 3,
      (volumetric_rendering rgb sigma z_vals dirs wb).1 j =
        (List.zipWith (fun w (c : Vec3) => w * c j) W rgb).sum + (1 - W.sum) := by
    intro h j; subst h; rfl
  have hcomp_f : wb = false → ∀ j : Fin 3,
      (volumetric_rendering rgb sigma z_vals dirs wb).1 j =
        (List.zipWith (fun w (c : Vec3) => w * c j) W rgb).sum := by
    intro h j; subst h; rfl
  have hA_mem : ∀ a ∈ A, 0 ≤ a ∧ a ≤ 1 := by
    intro a ha
    obtain ⟨s, hs, d, hd, rfl⟩ := exists_of_mem_zipWith ha
    have hs0 := hsig s hs
    have hd0 : 0 ≤ d := by
      rw [hSC] at hd
      obtain ⟨d0, hd0mem, rfl⟩ := List.mem_map.mp hd
      rw [hDL] at hd0mem
      rcases List.mem_append.mp hd0mem with hmem | hmem
      · exact mul_nonneg (diffs_nonneg z_vals hz d0 hmem) (Real.sqrt_nonneg _)
      · have : d0 = lastDelta := by simpa using hmem
        subst this
        exact mul_nonneg (by norm_num [lastDelta]) (Real.sqrt_nonneg _)
    constructor
    · rw [sub_nonneg]
      exact Real.exp_le_one_iff.mpr (by nlinarith)
    · have := Real.exp_pos (-(s * d))
      linarith
  have hW_nonneg : ∀ w ∈ W, 0 ≤ w := renderWeights_nonneg A 1 (by norm_num) hA_mem
  have hprod := prod_mem_unit (A.map (fun a => 1 - a)) (by
    intro x hx
    obtain ⟨a, ha, rfl⟩ := List.mem_map.mp hx
    have := hA_mem a ha
    constructor <;> linarith [this.1, this.2])
  have hsum_eq : W.sum = 1 - (A.map (fun a => 1 - a)).prod := by
    rw [hW, renderWeights_sum]; ring
  have hsum0 : 0 ≤ W.sum := by rw [hsum_eq]; linarith [hprod.2]
  have hsum1 : W.sum ≤ 1 := by rw [hsum_eq]; linarith [hprod.1]
  have hcol : ∀ j : Fin 3,
      0 ≤ (List.zipWith (fun w (c : Vec3) => w * c j) W rgb).sum ∧
      (List.zipWith (fun w (c : Vec3) => w * c j) W rgb).sum ≤ W.sum := by
    intro j
    exact ⟨sum_zipWith_mul_nonneg j W rgb hW_nonneg (fun c hc => (hrgb c hc j).1),
      sum_zipWith_mul_le j W rgb hW_nonneg (fun c hc => (hrgb c hc j).2)⟩
  refine ⟨by rw [hw_eq]; exact hW_nonneg, by rw [hw_eq]; exact hsum0,
    by rw [hw_eq]; exact hsum1, by rw [hacc_eq]; exact hsum0,
    by rw [hacc_eq]; exact hsum1, ?_⟩
  intro j
  cases wb
  · rw [hcomp_f rfl j]
    exact ⟨(hcol j).1, le_trans (hcol j).2 hsum1⟩
  · rw [hcomp_t rfl j]
    exact ⟨by linarith [(hcol j).1], by linarith [(hcol j).2]⟩

/-- C6 witness: the theorem applied to a concrete two-sample ray with
half-gray colors, zero densities, ordered depths and a unit direction. -/
theorem volumetric_rendering_ranges_witness :
    0 ≤ (volumetric_rendering [fun _ => (1 : ℝ) / 2, fun _ => (1 : ℝ) / 2] [0, 0]
      [2, 3] [1, 0, 0] true).2.2.1 ∧
    (volumetric_rendering [fun _ => (1 : ℝ) / 2, fun _ => (1 : ℝ) / 2] [0, 0]
      [2, 3] [1, 0, 0] true).2.2.1 ≤ 1 := by
  have h := volumetric_rendering_ranges
    [fun _ => (1 : ℝ) / 2, fun _ => (1 : ℝ) / 2] [0, 0] [2, 3] [1, 0, 0] true
    (by norm_num [List.chain'_cons])
    (by intro c hc j; rcases List.mem_cons.mp hc with rfl | hc2 <;> norm_num
        rcases List.mem_singleton.mp hc2 with rfl; norm_num)
    (by intro s hs; rcases List.mem_cons.mp hs with rfl | hs2
        · exact le_refl 0
        · rcases List.mem_singleton.mp hs2 with rfl; exact le_refl 0)
  exact ⟨h.2.2.2.1, h.2.2.2.2.1⟩

/-- C7 counterexample: with linear-in-disparity spacing, near = -1 and
far = 1 (so near < far), two deterministic samples, the first sampled
depth is -2, which lies outside [min near far, max near far]; the claim
as stated is false once the disparity spacing mode is allowed a
non-positive near plane. -/
theorem sample_depths_bounds_counterexample :
    ¬ (∀ t ∈ (sample_along_rays (fun _ => 0) [] [] 2 (-1) 1 false true).1,
        min (-1 : ℝ) 1 ≤ t ∧ t ≤ max (-1 : ℝ) 1) := by
  intro h
  have hm : (-2 : ℝ) ∈ (sample_along_rays (fun _ => 0) [] [] 2 (-1) 1 false true).1 := by
    have h0 : zFromU (-1) 1 true (binCoord false (fun _ => 0) 2 0) = -2 := by
      norm_num [zFromU, binCoord]
    simp only [sample_along_rays, List.mem_map]
    exact ⟨0, by simp, h0⟩
  have hb := (h _ hm).1
  norm_num at hb

/-- C7 (amended): the sampled depths are strictly increasing and lie in
[min near far, max near far] for every ray, every sample count, both
randomized (per-bin jitter in [0, 1)) and deterministic modes, and every
near < far — with the proviso the counterexample forces: under
linear-in-disparity spacing the near plane must additionally be
positive. -/
theorem sample_depths_sorted_bounded (r : ℕ → ℝ) (origin dir : List ℝ) (n : ℕ)
    (near far : ℝ) (rand lind : Bool) (hnf : near < far)
    (hr : ∀ k, 0 ≤ r k ∧ r k < 1) (hlin : lind = true → 0 < near) :
    ((sample_along_rays r origin dir n near far rand lind).1).Pairwise (· < ·) ∧
    ∀ t ∈ (sample_along_rays r origin dir n near far rand lind).1,
      min near far ≤ t ∧ t ≤ max near far := by
  have hz : (sample_along_rays r origin dir n near far rand lind).1 =
      (List.range n).map (fun i => zFromU near far lind (binCoord rand r n i)) := rfl
  constructor
  · rw [hz, List.pairwise_map]
    refine (List.pairwise_lt_range n).imp_of_mem ?_
    intro i j hi hj hij
    have hjn : j < n := List.mem_range.mp hj
    exact zFromU_strictMono near far lind hnf hlin
      (binCoord_nonneg rand r n i hr) (binCoord_lt_one rand r n j hjn hr).le
      (binCoord_strictMono rand r n hij hjn hr)
  · intro t ht
    rw [hz, List.mem_map] at ht
    obtain ⟨i, hi, rfl⟩ := ht
    have hin : i < n := List.mem_range.mp hi
    have hb := zFromU_bounds near far lind hnf hlin (binCoord rand r n i)
      (binCoord_nonneg rand r n i hr) (binCoord_lt_one rand r n i hin hr).le
    rw [min_eq_left hnf.le, max_eq_right hnf.le]
    exact hb

/-- C7 witness: the amended theorem applied at near = 2, far = 6, two
deterministic linear-in-depth samples with zero jitter. -/
theorem sample_depths_sorted_bounded_witness :
    ((sample_along_rays (fun _ => 0) [] [] 2 2 6 false false).1).Pairwise (· < ·) :=
  (sample_depths_sorted_bounded (fun _ => 0) [] [] 2 2 6 false false
    (by norm_num) (fun k => by norm_num) (fun _ => by norm_num)).1

/-- C8: when near = far = c the sampler degenerates without failure: in
both spacing modes and both randomization modes every sampled depth
equals the common value c (the disparity-spacing denominator is the
constant 1/c, so no division by zero arises), and rendering stays total:
apply still returns its usual result list.  NaN has no counterpart in
the real-valued model; totality is its expression here. -/
theorem equal_near_far_degenerate (r : ℕ → ℝ) (origin dir : List ℝ) (n : ℕ)
    (rand lind : Bool) (c : ℝ) :
    (∀ t ∈ (sample_along_rays r origin dir n c c rand lind).1, t = c) ∧
    (∀ (R : RF) (U G : Key → ℕ → ℝ) (k0 k1 : Key) (rays : List ℝ) (cfg : Config),
      (NerfModel.apply R U G k0 k1 rays { cfg with near := c, far := c }).length =
        if cfg.num_fine_samples = 0 then 1 else 2) := by
  constructor
  · intro t ht
    have hz : (sample_along_rays r origin dir n c c rand lind).1 =
        (List.range n).map (fun i => zFromU c c lind (binCoord rand r n i)) := rfl
    rw [hz, List.mem_map] at ht
    obtain ⟨i, _, rfl⟩ := ht
    cases lind
    · simp only [zFromU, Bool.false_eq_true, if_false]
      ring
    · simp only [zFromU, if_true]
      have hden : (1 / c) * (1 - binCoord rand r n i) + (1 / c) * binCoord rand r n i
          = 1 / c := by ring
      rw [hden, one_div_one_div]
  · intro R U G k0 k1 rays cfg
    exact apply_length R U G k0 k1 rays { cfg with near := c, far := c }

/-- C8 witness: the theorem applied at the claim's instance
near = far = 2, with the depth 2 a member of the sampled list. -/
theorem equal_near_far_degenerate_witness :
    (2 : ℝ) ∈ (sample_along_rays (fun _ => 0) [] [] 1 2 2 false false).1 ∧
    (2 : ℝ) = 2 := by
  have hm : (2 : ℝ) ∈ (sample_along_rays (fun _ => 0) [] [] 1 2 2 false false).1 := by
    have h0 : zFromU 2 2 false (binCoord false (fun _ => 0) 1 0) = 2 := by
      norm_num [zFromU, binCoord]
    simp only [sample_along_rays, List.mem_map]
    exact ⟨0, by simp, h0⟩
  exact ⟨hm, (equal_near_far_degenerate (fun _ => 0) [] [] 1 false false 2).1 2 hm⟩

/-- C9: with randomized = false, two calls to NerfModel.apply on
identical rays and configuration return identical results whatever the
random keys, the random oracles and the noise standard deviation are; in
particular the noise regularizer is the identity on raw densities for
every standard deviation when randomization is off. -/
theorem unrandomized_determinism (R : RF) (U U2 G G2 : Key → ℕ → ℝ)
    (k0 k02 k1 k12 : Key) (rays : List ℝ) (cfg : Config) (std std2 : ℝ)
    (h : cfg.randomized = false) :
    NerfModel.apply R U G k0 k1 rays { cfg with noise_std := std } =
      NerfModel.apply R U2 G2 k02 k12 rays { cfg with noise_std := std2 } ∧
    (∀ (g : ℕ → ℝ) (raw : List ℝ) (s : ℝ), add_gaussian_noise g raw s false = raw) := by
  refine ⟨?_, fun g raw s => add_gaussian_noise_unrandomized g raw s⟩
  unfold NerfModel.apply
  dsimp only
  rw [coarseStage_unrandomized R U U2 G G2 k0 k02 rays cfg std std2 h,
    fineStage_unrandomized R U U2 G G2 k1 k12 rays cfg std std2 _ _ h]

/-- C9 witness: the theorem applied at the concrete unrandomized
configuration cfgEx with different oracles, keys and noise levels. -/
theorem unrandomized_determinism_witness :
    NerfModel.apply rfEx (fun _ _ => 0) (fun _ _ => 0) 0 0 raysEx6
        { cfgEx with noise_std := 5 } =
      NerfModel.apply rfEx (fun _ _ => 1) (fun _ _ => 1) 7 9 raysEx6
        { cfgEx with noise_std := 3 } :=
  (unrandomized_determinism rfEx (fun _ _ => 0) (fun _ _ => 1) (fun _ _ => 0)
    (fun _ _ => 1) 0 7 0 9 raysEx6 cfgEx 5 3 rfl).1

/-- C10: the differentiated training scalar is the mean squared color
error of the last (primary) prediction against the target pixels, plus
the unweighted mean squared color error of the first (coarse) prediction
when two predictions are present; with a single prediction the coarse
term is exactly zero and the scalar is the primary error alone. -/
theorem train_loss_composition (ret : List Pred) (pixels : List Vec3) :
    (ret.length = 1 →
      loss_fn ret pixels = Except.ok (mseLoss (ret.getLastD dPred).1 pixels)) ∧
    (ret.length = 2 →
      loss_fn ret pixels = Except.ok (mseLoss (ret.getLastD dPred).1 pixels +
        mseLoss (ret.headD dPred).1 pixels)) := by
  constructor
  · intro h
    obtain ⟨a, rfl⟩ := List.length_eq_one.mp h
    simp [loss_fn]
  · intro h
    obtain ⟨a, b, rfl⟩ := List.length_eq_two.mp h
    simp [loss_fn]

/-- C10 witness: the theorem applied to a concrete singleton ret list. -/
theorem train_loss_composition_witness :
    loss_fn [dPred] [] = Except.ok (mseLoss (([dPred] : List Pred).getLastD dPred).1 []) :=
  (train_loss_composition [dPred] []).1 rfl

end JaxNerf
